import Mathlib

/-!
Verification development for the `sound3d` spatial-audio demo.

The Python source (`sound3d/demo.py`) is shallowly embedded below:
  * `readHRTF`                      decodes a 256-value big-endian int16 artifact
                                    into two 64-tap FIR coefficient lists;
  * `compute_focus_point_distance`  is `_compute_focus_point_distance`, the
                                    elliptical ear-distance model;
  * `locate_sound_binaural`         the delay/amplitude locator;
  * `locate_sound_hrtf`             the FIR-filter locator with mirrored lookup;
  * `rotate_sound_horizontally`     the rotation sequencer.

Numeric conventions: Python/NumPy float arithmetic is modelled with `ℝ`;
int16 file content with `List ℤ`; signals with `List ℝ`.  Fallible operations
(missing data files, NumPy reshape failures, Python `IndexError`) are modelled
with `Option`.  The file store (`compact/elev{e}/H{e}e{angle}a.dat`) is
abstracted as a function `ℤ → ℤ → Option (List ℤ)` from (elevation, angle) to
the int16 content of the corresponding file, when it exists.
-/

/-- Map a fallible function over a list, failing if any element fails
(the `Option` image of a Python loop that may raise). -/
def optionMapList {α β : Type} (f : α → Option β) : List α → Option (List β)
  | [] => some []
  | a :: as =>
    match f a, optionMapList f as with
    | some b, some bs => some (b :: bs)
    | _, _ => none

/-- Python `int(x)` on a float: truncation toward zero. -/
noncomputable def pyint (x : ℝ) : ℤ := if 0 ≤ x then ⌊x⌋ else ⌈x⌉

/-- Python list indexing `s[i]` with a possibly negative index: a negative
index within `-len(s)` wraps once from the end; anything further is an
`IndexError`, modelled as `none`. -/
def pyGet (s : List ℝ) (i : ℤ) : Option ℝ :=
  if 0 ≤ i ∧ i < (s.length : ℤ) then s[i.toNat]?
  else if -(s.length : ℤ) ≤ i ∧ i < 0 then s[(i + (s.length : ℤ)).toNat]?
  else none

/-- Python float `x % y` (used to state modulo-360 reduction of a real azimuth). -/
noncomputable def pymodR (x y : ℝ) : ℝ := x - y * ⌊x / y⌋

/-- A signal extended by zero to negative (and out-of-range) integer indices,
as used to state the causal FIR convolution. -/
def zpad (s : List ℝ) (m : ℤ) : ℝ := if 0 ≤ m then s.getD m.toNat 0 else 0

/-- Exchange the left and right channels of a stereo pair. -/
def swapPair (p : List ℝ × List ℝ) : List ℝ × List ℝ := (p.2, p.1)

/-- `r.shape = (128, 2)`: consecutive elements paired up. -/
def pairsOf : List ℤ → List (ℤ × ℤ)
  | a :: b :: rest => (a, b) :: pairsOf rest
  | _ => []

/-- NumPy slice `r[0::2]`: the elements at even positions. -/
def evens {α : Type} : List α → List α
  | [] => []
  | [a] => [a]
  | a :: _ :: rest => a :: evens rest

/-- NumPy slice `r[1::2]`: the elements at odd positions. -/
def odds {α : Type} : List α → List α
  | [] => []
  | _ :: rest => evens rest

/-- `readHRTF`: read at most 256 big-endian int16 values (`np.fromfile` with
`count=256`), reshape to `(128, 2)` (fails unless exactly 256 values were
read), then `r = (r[0::2, :] + r[1::2, :]) / 65536` columnwise, giving the
(left, right) 64-tap coefficient lists. -/
noncomputable def readHRTF (data : List ℤ) : Option (List ℝ × List ℝ) :=
  let r := data.take 256
  if r.length = 256 then
    let rows := pairsOf r
    let halved := List.zipWith
      (fun p q => (((p.1 + q.1 : ℤ) : ℝ) / 65536, ((p.2 + q.2 : ℤ) : ℝ) / 65536))
      (evens rows) (odds rows)
    some (halved.map Prod.fst, halved.map Prod.snd)
  else none

/-- `_compute_focus_point_distance`: distances from the point of the ellipse
at the given angle (degrees) to the two focus points (the ears). -/
noncomputable def compute_focus_point_distance
    (elipse_a elipse_b degree : ℝ) (normalized : Bool) : ℝ × ℝ :=
  let angle := degree * 2 * Real.pi / 360
  let a := elipse_a
  let b := elipse_b
  let c := Real.sqrt (a ^ 2 - b ^ 2)
  let point_x := Real.cos angle * a
  let point_y_abs := Real.sqrt (b ^ 2 * (1 - point_x ^ 2 / a ^ 2))
  let point_y := if degree > 180 then -point_y_abs else point_y_abs
  let left_point_distance := Real.sqrt ((point_x - (-c)) ^ 2 + (point_y - 0) ^ 2)
  let right_point_distance := Real.sqrt ((point_x - c) ^ 2 + (point_y - 0) ^ 2)
  if normalized then (left_point_distance / a, right_point_distance / a)
  else (left_point_distance, right_point_distance)

/-- Branch-free form of the focus-point distances: since the vertical
coordinate enters only squared, the `degree > 180` sign flip is irrelevant and
both distances depend on the degree only through its cosine `co`. -/
noncomputable def cfpdNF (a b co : ℝ) : ℝ × ℝ :=
  (Real.sqrt ((co * a + Real.sqrt (a ^ 2 - b ^ 2)) ^ 2 +
      Real.sqrt (b ^ 2 * (1 - (co * a) ^ 2 / a ^ 2)) ^ 2),
   Real.sqrt ((co * a - Real.sqrt (a ^ 2 - b ^ 2)) ^ 2 +
      Real.sqrt (b ^ 2 * (1 - (co * a) ^ 2 / a ^ 2)) ^ 2))

/-- `min_amp + (1 - distance_to_l_ear)` in `locate_sound_binaural`. -/
noncomputable def binaural_left_amplitude (azimuth : ℝ) : ℝ :=
  0.1 + (1 - (compute_focus_point_distance 5 3 azimuth true).1)

/-- `min_amp + (1 - distance_to_r_ear)` in `locate_sound_binaural`. -/
noncomputable def binaural_right_amplitude (azimuth : ℝ) : ℝ :=
  0.1 + (1 - (compute_focus_point_distance 5 3 azimuth true).2)

/-- `int(max_shift * distance_to_l_ear)` in `locate_sound_binaural`. -/
noncomputable def binaural_left_shift (azimuth : ℝ) : ℤ :=
  pyint (300 * (compute_focus_point_distance 5 3 azimuth true).1)

/-- `int(max_shift * distance_to_r_ear)` in `locate_sound_binaural`. -/
noncomputable def binaural_right_shift (azimuth : ℝ) : ℤ :=
  pyint (300 * (compute_focus_point_distance 5 3 azimuth true).2)

/-- `locate_sound_binaural`: per-ear amplitude scaling and integer sample
delay, reading the input with Python negative indexing (`none` when some
access raises `IndexError`). -/
noncomputable def locate_sound_binaural (azimuth : ℝ) (sound : List ℝ) :
    Option (List ℝ × List ℝ) :=
  match optionMapList
      (fun (i : ℕ) => (pyGet sound ((i : ℤ) - binaural_left_shift azimuth)).map
        (fun v => binaural_left_amplitude azimuth * v)) (List.range sound.length),
    optionMapList
      (fun (i : ℕ) => (pyGet sound ((i : ℤ) - binaural_right_shift azimuth)).map
        (fun v => binaural_right_amplitude azimuth * v)) (List.range sound.length) with
  | some l, some r => some (l, r)
  | _, _ => none

/-- `scipy.signal.lfilter(b, 1.0, x)`: the causal FIR difference equation
`y[n] = sum_k b[k] * x[n-k]`, with the input taken as zero before index 0,
output length equal to input length. -/
noncomputable def lfilter (b : List ℝ) (x : List ℝ) : List ℝ :=
  (List.range x.length).map
    (fun n => ∑ k ∈ Finset.range b.length, b.getD k 0 * (if k ≤ n then x.getD (n - k) 0 else 0))

/-- `locate_sound_hrtf`: reduce the azimuth modulo 360, mirror angles above
180 onto `360 - azimuth`, load and decode that record from the store `fs`,
swap the two coefficient columns when the reduced azimuth exceeds 180, and
apply each as an FIR filter to the signal. -/
noncomputable def locate_sound_hrtf (fs : ℤ → ℤ → Option (List ℤ))
    (elevation azimuth0 : ℤ) (sound : List ℝ) : Option (List ℝ × List ℝ) :=
  let azimuth := azimuth0 % 360
  let angle := if azimuth ≤ 180 then azimuth else 360 - azimuth
  match (fs elevation angle).bind readHRTF with
  | none => none
  | some hrtf =>
    let l := if azimuth ≤ 180 then hrtf.1 else hrtf.2
    let r := if azimuth ≤ 180 then hrtf.2 else hrtf.1
    some (lfilter l sound, lfilter r sound)

/-- The resolved (left, right) FIR coefficient pair used by
`locate_sound_hrtf` for a given elevation and azimuth: the record for the
mirrored angle, with the columns swapped when the reduced azimuth exceeds 180. -/
noncomputable def hrtfFilterPair (fs : ℤ → ℤ → Option (List ℤ))
    (elevation azimuth0 : ℤ) : Option (List ℝ × List ℝ) :=
  let azimuth := azimuth0 % 360
  let angle := if azimuth ≤ 180 then azimuth else 360 - azimuth
  ((fs elevation angle).bind readHRTF).map
    (fun hrtf => if azimuth ≤ 180 then hrtf else (hrtf.2, hrtf.1))

/-- The body of the rotation loop: chunk `i` of the signal (`chunk` samples
starting at `i * chunk`) rendered at azimuth `(start_angle + i*5) % 360` with
the locator selected by `mode`. -/
noncomputable def rotateChunk (fs : ℤ → ℤ → Option (List ℤ)) (start_angle : ℤ)
    (mode : String) (chunk : ℕ) (sound_mono : List ℝ) (i : ℕ) :
    Option (List ℝ × List ℝ) :=
  let az := (start_angle + (i : ℤ) * 5) % 360
  let seg := (sound_mono.drop (i * chunk)).take chunk
  if mode = "hrtf" then locate_sound_hrtf fs 0 az seg
  else locate_sound_binaural (az : ℝ) seg

/-- `rotate_sound_horizontally` with its hardcoded `step = 5`: split the
signal into 72 chunks of `N / 72` samples, render chunk `i` at azimuth
`(start_angle + i*5) % 360` with the selected locator, and concatenate. -/
noncomputable def rotate_sound_horizontally (fs : ℤ → ℤ → Option (List ℤ))
    (sound_mono : List ℝ) (start_angle : ℤ) (mode : String) :
    Option (List ℝ × List ℝ) :=
  let N := sound_mono.length
  let chunk := N / 72
  match optionMapList (rotateChunk fs start_angle mode chunk sound_mono)
      (List.range 72) with
  | some rs => some ((rs.map Prod.fst).flatten, (rs.map Prod.snd).flatten)
  | none => none

/-- The decode-test fixture of the spec: 128 interleaved (left, right) pairs
alternating between `[0, 0]` and `[65536, 65536]`. -/
def hrtfFixture : List ℤ := (List.range 256).map (fun j => if j % 4 ≤ 1 then 0 else 65536)

/-- A data store in which every (elevation, angle) file exists and holds 256
zero samples. -/
def fsAll : ℤ → ℤ → Option (List ℤ) := fun _ _ => some (List.replicate 256 0)

/-- A data store with no files at all. -/
def fsNone : ℤ → ℤ → Option (List ℤ) := fun _ _ => none

/-! ### Helper lemmas: `optionMapList` -/

theorem optionMapList_length {α β : Type} {f : α → Option β} :
    ∀ {l : List α} {bs : List β}, optionMapList f l = some bs → bs.length = l.length := by
  intro l
  induction l with
  | nil => intro bs h; simp [optionMapList] at h; simp [← h]
  | cons a as ih =>
    intro bs h
    unfold optionMapList at h
    cases hfa : f a with
    | none => rw [hfa] at h; simp at h
    | some b =>
      cases hrec : optionMapList f as with
      | none => rw [hfa, hrec] at h; simp at h
      | some bs0 =>
        rw [hfa, hrec] at h
        simp at h
        subst h
        simp [ih hrec]

theorem optionMapList_getElem? {α β : Type} {f : α → Option β} :
    ∀ {l : List α} {bs : List β}, optionMapList f l = some bs →
      ∀ (i : ℕ) (a : α), l[i]? = some a → bs[i]? = f a := by
  intro l
  induction l with
  | nil => intro bs h i a ha; simp at ha
  | cons x xs ih =>
    intro bs h i a ha
    unfold optionMapList at h
    cases hfa : f x with
    | none => rw [hfa] at h; simp at h
    | some b =>
      cases hrec : optionMapList f xs with
      | none => rw [hfa, hrec] at h; simp at h
      | some bs0 =>
        rw [hfa, hrec] at h
        simp at h
        subst h
        cases i with
        | zero => simp at ha; subst ha; simp [hfa]
        | succ j =>
          rw [List.getElem?_cons_succ] at ha
          rw [List.getElem?_cons_succ]
          exact ih hrec j a ha

theorem optionMapList_of_forall {α β : Type} {f : α → Option β} {g : α → β} :
    ∀ {l : List α}, (∀ a ∈ l, f a = some (g a)) → optionMapList f l = some (l.map g) := by
  intro l
  induction l with
  | nil => intro _; simp [optionMapList]
  | cons x xs ih =>
    intro h
    unfold optionMapList
    rw [h x (by simp), ih (fun a ha => h a (by simp [ha]))]
    simp

theorem optionMapList_none {α β : Type} {f : α → Option β} {a : α} :
    ∀ {l : List α}, a ∈ l → f a = none → optionMapList f l = none := by
  intro l
  induction l with
  | nil => intro h; simp at h
  | cons x xs ih =>
    intro hmem hfa
    unfold optionMapList
    rcases List.mem_cons.mp hmem with h | h
    · subst h; rw [hfa]
    · cases hfx : f x with
      | none => rfl
      | some b => rw [ih h hfa]

/-! ### Helper lemmas: Python indexing -/

theorem getElem?_eq_some_getD {s : List ℝ} {n : ℕ} (h : n < s.length) :
    s[n]? = some (s.getD n 0) := by
  rw [List.getD_eq_getElem?_getD, List.getElem?_eq_getElem h]
  rfl

theorem pyGet_wrap {s : List ℝ} {i : ℤ} (h1 : -(s.length : ℤ) ≤ i) (h2 : i < (s.length : ℤ)) :
    pyGet s i = some (s.getD (i % (s.length : ℤ)).toNat 0) := by
  have hN : 0 < s.length := by omega
  have hmod : 0 ≤ i % (s.length : ℤ) := Int.emod_nonneg i (by omega)
  have hmodlt : i % (s.length : ℤ) < (s.length : ℤ) :=
    Int.emod_lt_of_pos i (by exact_mod_cast hN)
  have hidx : (i % (s.length : ℤ)).toNat < s.length := by omega
  unfold pyGet
  by_cases hpos : 0 ≤ i
  · rw [if_pos ⟨hpos, h2⟩]
    have hmi : i % (s.length : ℤ) = i := Int.emod_eq_of_lt hpos h2
    rw [hmi]
    exact getElem?_eq_some_getD (by omega)
  · rw [if_neg (by omega), if_pos ⟨h1, by omega⟩]
    have hmi : i % (s.length : ℤ) = i + (s.length : ℤ) := by
      have h' : (i + (s.length : ℤ)) % (s.length : ℤ) = i % (s.length : ℤ) := by
        simp [Int.add_mul_emod_self_left]
      rw [← h']
      exact Int.emod_eq_of_lt (by omega) (by omega)
    rw [hmi]
    exact getElem?_eq_some_getD (by omega)

theorem pyGet_none {s : List ℝ} {i : ℤ} (h : i < -(s.length : ℤ)) : pyGet s i = none := by
  unfold pyGet
  rw [if_neg (by omega), if_neg (by omega)]

/-! ### Helper lemmas: decode pipeline indexing -/

theorem evens_getElem? {α : Type} : ∀ (l : List α) (i : ℕ), (evens l)[i]? = l[2 * i]? := by
  intro l
  induction l using evens.induct with
  | case1 =>
    intro i
    simp [evens]
  | case2 a =>
    intro i
    cases i with
    | zero => simp [evens]
    | succ j =>
      rw [show 2 * (j + 1) = 2 * j + 1 + 1 by ring]
      simp [evens]
  | case3 a x rest ih =>
    intro i
    cases i with
    | zero => simp [evens]
    | succ j =>
      show (a :: evens rest)[j + 1]? = _
      rw [show 2 * (j + 1) = 2 * j + 1 + 1 by ring]
      rw [List.getElem?_cons_succ, List.getElem?_cons_succ, List.getElem?_cons_succ]
      exact ih j

theorem odds_getElem? {α : Type} (l : List α) (i : ℕ) : (odds l)[i]? = l[2 * i + 1]? := by
  cases l with
  | nil => simp [odds]
  | cons a rest =>
    show (evens rest)[i]? = _
    rw [List.getElem?_cons_succ]
    exact evens_getElem? rest i

theorem pairsOf_getElem? : ∀ (l : List ℤ) (i : ℕ), 2 * i + 1 < l.length →
    (pairsOf l)[i]? = some (l.getD (2 * i) 0, l.getD (2 * i + 1) 0)
  | [], i, hi => by simp at hi
  | [a], i, hi => by simp at hi
  | a :: b :: rest, 0, hi => by simp [pairsOf, List.getD]
  | a :: b :: rest, j + 1, hi => by
    simp only [pairsOf, List.getElem?_cons_succ]
    rw [show 2 * (j + 1) = 2 * j + 1 + 1 by ring]
    have hlen : 2 * j + 1 < rest.length := by
      simp at hi
      omega
    rw [pairsOf_getElem? rest j hlen]
    simp [List.getD_cons_succ]

theorem pairsOf_length : ∀ l : List ℤ, (pairsOf l).length = l.length / 2
  | [] => by simp [pairsOf]
  | [a] => by simp [pairsOf]
  | a :: b :: rest => by
    simp only [pairsOf, List.length_cons, pairsOf_length rest]
    omega

theorem evens_length {α : Type} : ∀ l : List α, (evens l).length = (l.length + 1) / 2 := by
  intro l
  induction l using evens.induct with
  | case1 => simp [evens]
  | case2 a => simp [evens]
  | case3 a x rest ih => simp [evens, ih]; omega

theorem odds_length {α : Type} (l : List α) : (odds l).length = l.length / 2 := by
  cases l with
  | nil => simp [odds]
  | cons a rest =>
    show (evens rest).length = _
    rw [evens_length]
    simp

/-! ### Helper lemmas: `lfilter` -/

theorem lfilter_length (b x : List ℝ) : (lfilter b x).length = x.length := by
  simp [lfilter]

theorem lfilter_getElem? (b x : List ℝ) (n : ℕ) (h : n < x.length) :
    (lfilter b x)[n]? = some (∑ k ∈ Finset.range b.length,
      b.getD k 0 * (if k ≤ n then x.getD (n - k) 0 else 0)) := by
  unfold lfilter
  rw [List.getElem?_map, List.getElem?_range h]
  rfl

theorem lfilter_getD (b x : List ℝ) (n : ℕ) (h : n < x.length) :
    (lfilter b x).getD n 0 = ∑ k ∈ Finset.range b.length,
      b.getD k 0 * (if k ≤ n then x.getD (n - k) 0 else 0) := by
  rw [List.getD_eq_getElem?_getD, lfilter_getElem? b x n h]
  rfl

theorem lfilter_formula (b x : List ℝ) (n : ℕ) (h : n < x.length) :
    (lfilter b x).getD n 0 = ∑ k ∈ Finset.range b.length, b.getD k 0 * zpad x ((n : ℤ) - k) := by
  rw [lfilter_getD b x n h]
  apply Finset.sum_congr rfl
  intro k _
  congr 1
  unfold zpad
  by_cases hk : k ≤ n
  · rw [if_pos hk, if_pos (by omega)]
    congr 1
    omega
  · rw [if_neg hk, if_neg (by omega)]

/-! ### Helper lemmas: `readHRTF` -/

theorem getD_take {l : List ℤ} {n j : ℕ} (h : j < n) : (l.take n).getD j 0 = l.getD j 0 := by
  rw [List.getD_eq_getElem?_getD, List.getD_eq_getElem?_getD, List.getElem?_take]
  simp [h]

theorem readHRTF_some (data : List ℤ) (h : 256 ≤ data.length) :
    ∃ L R, readHRTF data = some (L, R) ∧ L.length = 64 ∧ R.length = 64 ∧
      (∀ i : ℕ, i < 64 →
        L.getD i 0 = ((data.getD (4 * i) 0 + data.getD (4 * i + 2) 0 : ℤ) : ℝ) / 65536 ∧
        R.getD i 0 = ((data.getD (4 * i + 1) 0 + data.getD (4 * i + 3) 0 : ℤ) : ℝ) / 65536) := by
  have hrlen : (data.take 256).length = 256 := by
    rw [List.length_take]
    omega
  have hrows : (pairsOf (data.take 256)).length = 128 := by
    rw [pairsOf_length, hrlen]
  have hev : (evens (pairsOf (data.take 256))).length = 64 := by
    rw [evens_length, hrows]
  have hod : (odds (pairsOf (data.take 256))).length = 64 := by
    rw [odds_length, hrows]
  simp only [readHRTF]
  rw [if_pos hrlen]
  refine ⟨_, _, rfl, ?_, ?_, ?_⟩
  · simp [List.length_zipWith, hev, hod]
  · simp [List.length_zipWith, hev, hod]
  · intro i hi
    have hev_i : (evens (pairsOf (data.take 256)))[i]? =
        some ((data.take 256).getD (4 * i) 0, (data.take 256).getD (4 * i + 1) 0) := by
      have hp := pairsOf_getElem? (data.take 256) (2 * i) (by rw [hrlen]; omega)
      rw [show 2 * (2 * i) = 4 * i from by ring] at hp
      rw [evens_getElem?]
      exact hp
    have hod_i : (odds (pairsOf (data.take 256)))[i]? =
        some ((data.take 256).getD (4 * i + 2) 0, (data.take 256).getD (4 * i + 3) 0) := by
      have hp := pairsOf_getElem? (data.take 256) (2 * i + 1) (by rw [hrlen]; omega)
      rw [show 2 * (2 * i + 1) = 4 * i + 2 from by ring] at hp
      rw [show 4 * i + 2 + 1 = 4 * i + 3 from by omega] at hp
      rw [odds_getElem?]
      exact hp
    have hzip : (List.zipWith
        (fun p q => (((p.1 + q.1 : ℤ) : ℝ) / 65536, ((p.2 + q.2 : ℤ) : ℝ) / 65536))
        (evens (pairsOf (data.take 256))) (odds (pairsOf (data.take 256))))[i]? =
        some ((((data.take 256).getD (4 * i) 0 + (data.take 256).getD (4 * i + 2) 0 : ℤ) : ℝ) / 65536,
              (((data.take 256).getD (4 * i + 1) 0 + (data.take 256).getD (4 * i + 3) 0 : ℤ) : ℝ) / 65536) := by
      rw [List.getElem?_zipWith, hev_i, hod_i]
    have ht : ∀ j : ℕ, j < 256 → (List.take 256 data)[j]? = data[j]? := by
      intro j hj
      rw [List.getElem?_take]
      simp [hj]
    constructor
    · rw [List.getD_eq_getElem?_getD, List.getElem?_map, hzip]
      simp [List.getD_eq_getElem?_getD, ht (4 * i) (by omega), ht (4 * i + 2) (by omega)]
    · rw [List.getD_eq_getElem?_getD, List.getElem?_map, hzip]
      simp [List.getD_eq_getElem?_getD, ht (4 * i + 1) (by omega), ht (4 * i + 3) (by omega)]

/-! ### Helper lemmas: the ellipse geometry -/

theorem cfpd_eq_nf (a b d : ℝ) (n : Bool) :
    compute_focus_point_distance a b d n =
      (if n then ((cfpdNF a b (Real.cos (d * 2 * Real.pi / 360))).1 / a,
                  (cfpdNF a b (Real.cos (d * 2 * Real.pi / 360))).2 / a)
       else cfpdNF a b (Real.cos (d * 2 * Real.pi / 360))) := by
  unfold compute_focus_point_distance cfpdNF
  by_cases hd : d > 180
  · simp only [if_pos hd, sub_neg_eq_add, sub_zero, neg_sq]
  · simp only [if_neg hd, sub_neg_eq_add, sub_zero, neg_sq]

theorem cfpdNF_53 (co : ℝ) (h1 : -1 ≤ co) (h2 : co ≤ 1) :
    cfpdNF 5 3 co = (5 + 4 * co, 5 - 4 * co) := by
  have hc : Real.sqrt ((5 : ℝ) ^ 2 - 3 ^ 2) = 4 := by
    rw [show ((5 : ℝ) ^ 2 - 3 ^ 2) = 4 ^ 2 by norm_num]
    exact Real.sqrt_sq (by norm_num)
  have hynn : (0 : ℝ) ≤ (3 : ℝ) ^ 2 * (1 - (co * 5) ^ 2 / 5 ^ 2) := by nlinarith
  have hy2 : Real.sqrt ((3 : ℝ) ^ 2 * (1 - (co * 5) ^ 2 / 5 ^ 2)) ^ 2 =
      (3 : ℝ) ^ 2 * (1 - (co * 5) ^ 2 / 5 ^ 2) := Real.sq_sqrt hynn
  have hL : Real.sqrt ((co * 5 + Real.sqrt ((5 : ℝ) ^ 2 - 3 ^ 2)) ^ 2 +
      Real.sqrt ((3 : ℝ) ^ 2 * (1 - (co * 5) ^ 2 / 5 ^ 2)) ^ 2) = 5 + 4 * co := by
    rw [hc, hy2]
    rw [show (co * 5 + 4) ^ 2 + (3 : ℝ) ^ 2 * (1 - (co * 5) ^ 2 / 5 ^ 2) = (4 * co + 5) ^ 2 by ring]
    rw [Real.sqrt_sq (by nlinarith)]
    ring
  have hR : Real.sqrt ((co * 5 - Real.sqrt ((5 : ℝ) ^ 2 - 3 ^ 2)) ^ 2 +
      Real.sqrt ((3 : ℝ) ^ 2 * (1 - (co * 5) ^ 2 / 5 ^ 2)) ^ 2) = 5 - 4 * co := by
    rw [hc, hy2]
    rw [show (co * 5 - 4) ^ 2 + (3 : ℝ) ^ 2 * (1 - (co * 5) ^ 2 / 5 ^ 2) = (4 * co - 5) ^ 2 by ring]
    rw [show ((4 : ℝ) * co - 5) ^ 2 = (5 - 4 * co) ^ 2 by ring]
    rw [Real.sqrt_sq (by nlinarith)]
  unfold cfpdNF
  rw [hL, hR]

theorem binaural_distances_eq (az : ℝ) :
    compute_focus_point_distance 5 3 az true =
      ((5 + 4 * Real.cos (az * 2 * Real.pi / 360)) / 5,
       (5 - 4 * Real.cos (az * 2 * Real.pi / 360)) / 5) := by
  rw [cfpd_eq_nf]
  rw [if_pos rfl]
  rw [cfpdNF_53 _ (Real.neg_one_le_cos _) (Real.cos_le_one _)]

theorem cfpd_congr (a b d1 d2 : ℝ) (n : Bool)
    (h : Real.cos (d1 * 2 * Real.pi / 360) = Real.cos (d2 * 2 * Real.pi / 360)) :
    compute_focus_point_distance a b d1 n = compute_focus_point_distance a b d2 n := by
  rw [cfpd_eq_nf, cfpd_eq_nf, h]

/-! ### Helper lemmas: the binaural locator -/

theorem binaural_dist_bounds (az : ℝ) :
    (1 : ℝ) / 5 ≤ (compute_focus_point_distance 5 3 az true).1 ∧
    (compute_focus_point_distance 5 3 az true).1 ≤ 9 / 5 ∧
    (1 : ℝ) / 5 ≤ (compute_focus_point_distance 5 3 az true).2 ∧
    (compute_focus_point_distance 5 3 az true).2 ≤ 9 / 5 := by
  rw [binaural_distances_eq]
  have h1 := Real.neg_one_le_cos (az * 2 * Real.pi / 360)
  have h2 := Real.cos_le_one (az * 2 * Real.pi / 360)
  refine ⟨?_, ?_, ?_, ?_⟩ <;> dsimp only <;> nlinarith

theorem binaural_left_shift_floor (az : ℝ) :
    binaural_left_shift az = ⌊300 * (compute_focus_point_distance 5 3 az true).1⌋ := by
  have hd := (binaural_dist_bounds az).1
  unfold binaural_left_shift pyint
  rw [if_pos (by nlinarith)]

theorem binaural_right_shift_floor (az : ℝ) :
    binaural_right_shift az = ⌊300 * (compute_focus_point_distance 5 3 az true).2⌋ := by
  have hd := (binaural_dist_bounds az).2.2.1
  unfold binaural_right_shift pyint
  rw [if_pos (by nlinarith)]

theorem binaural_shift_bounds (az : ℝ) :
    0 ≤ binaural_left_shift az ∧ binaural_left_shift az ≤ 540 ∧
    0 ≤ binaural_right_shift az ∧ binaural_right_shift az ≤ 540 := by
  obtain ⟨hd1, hd2, hd3, hd4⟩ := binaural_dist_bounds az
  rw [binaural_left_shift_floor, binaural_right_shift_floor]
  refine ⟨?_, ?_, ?_, ?_⟩
  · exact Int.le_floor.mpr (by push_cast; nlinarith)
  · calc ⌊300 * (compute_focus_point_distance 5 3 az true).1⌋
        ≤ ⌊(540 : ℝ)⌋ := Int.floor_le_floor (by nlinarith)
      _ = 540 := by norm_num
  · exact Int.le_floor.mpr (by push_cast; nlinarith)
  · calc ⌊300 * (compute_focus_point_distance 5 3 az true).2⌋
        ≤ ⌊(540 : ℝ)⌋ := Int.floor_le_floor (by nlinarith)
      _ = 540 := by norm_num

theorem locate_binaural_spec (az : ℝ) (s : List ℝ)
    (hL : binaural_left_shift az ≤ (s.length : ℤ))
    (hR : binaural_right_shift az ≤ (s.length : ℤ)) :
    locate_sound_binaural az s = some (
      (List.range s.length).map (fun (i : ℕ) => binaural_left_amplitude az *
        s.getD (((i : ℤ) - binaural_left_shift az) % (s.length : ℤ)).toNat 0),
      (List.range s.length).map (fun (i : ℕ) => binaural_right_amplitude az *
        s.getD (((i : ℤ) - binaural_right_shift az) % (s.length : ℤ)).toNat 0)) := by
  obtain ⟨hb1, hb2, hb3, hb4⟩ := binaural_shift_bounds az
  unfold locate_sound_binaural
  have hleft : optionMapList
      (fun (i : ℕ) => (pyGet s ((i : ℤ) - binaural_left_shift az)).map
        (fun v => binaural_left_amplitude az * v)) (List.range s.length) =
      some ((List.range s.length).map (fun (i : ℕ) => binaural_left_amplitude az *
        s.getD (((i : ℤ) - binaural_left_shift az) % (s.length : ℤ)).toNat 0)) := by
    apply optionMapList_of_forall
    intro i hi
    have hi' : i < s.length := List.mem_range.mp hi
    rw [pyGet_wrap (by omega) (by omega)]
    rfl
  have hright : optionMapList
      (fun (i : ℕ) => (pyGet s ((i : ℤ) - binaural_right_shift az)).map
        (fun v => binaural_right_amplitude az * v)) (List.range s.length) =
      some ((List.range s.length).map (fun (i : ℕ) => binaural_right_amplitude az *
        s.getD (((i : ℤ) - binaural_right_shift az) % (s.length : ℤ)).toNat 0)) := by
    apply optionMapList_of_forall
    intro i hi
    have hi' : i < s.length := List.mem_range.mp hi
    rw [pyGet_wrap (by omega) (by omega)]
    rfl
  rw [hleft, hright]

theorem locate_binaural_none_left (az : ℝ) (s : List ℝ) (h0 : 0 < s.length)
    (h : (s.length : ℤ) < binaural_left_shift az) : locate_sound_binaural az s = none := by
  unfold locate_sound_binaural
  have hmem : (0 : ℕ) ∈ List.range s.length := List.mem_range.mpr h0
  have hnone : (pyGet s ((0 : ℕ) - binaural_left_shift az)).map
      (fun v => binaural_left_amplitude az * v) = none := by
    rw [pyGet_none (by omega)]
    rfl
  rw [optionMapList_none hmem hnone]

/-! ### Specific angles -/

theorem cos_deg_0 : Real.cos ((0 : ℝ) * 2 * Real.pi / 360) = 1 := by
  rw [show (0 : ℝ) * 2 * Real.pi / 360 = 0 by ring]
  exact Real.cos_zero

theorem cos_deg_90 : Real.cos ((90 : ℝ) * 2 * Real.pi / 360) = 0 := by
  rw [show (90 : ℝ) * 2 * Real.pi / 360 = Real.pi / 2 by ring]
  exact Real.cos_pi_div_two

theorem cos_deg_180 : Real.cos ((180 : ℝ) * 2 * Real.pi / 360) = -1 := by
  rw [show (180 : ℝ) * 2 * Real.pi / 360 = Real.pi by ring]
  exact Real.cos_pi

theorem cos_deg_45 : Real.cos ((45 : ℝ) * 2 * Real.pi / 360) = Real.sqrt 2 / 2 := by
  rw [show (45 : ℝ) * 2 * Real.pi / 360 = Real.pi / 4 by ring]
  exact Real.cos_pi_div_four

theorem cos_deg_60 : Real.cos ((60 : ℝ) * 2 * Real.pi / 360) = 1 / 2 := by
  rw [show (60 : ℝ) * 2 * Real.pi / 360 = Real.pi / 3 by ring]
  exact Real.cos_pi_div_three

theorem cos_deg_300 : Real.cos ((300 : ℝ) * 2 * Real.pi / 360) = 1 / 2 := by
  rw [show (300 : ℝ) * 2 * Real.pi / 360 = 2 * Real.pi - Real.pi / 3 by ring]
  rw [Real.cos_two_pi_sub]
  exact Real.cos_pi_div_three

theorem binaural_left_shift_0 : binaural_left_shift 0 = 540 := by
  rw [binaural_left_shift_floor, binaural_distances_eq]
  dsimp only
  rw [cos_deg_0]
  norm_num

theorem binaural_left_shift_180 : binaural_left_shift 180 = 60 := by
  rw [binaural_left_shift_floor, binaural_distances_eq]
  dsimp only
  rw [cos_deg_180]
  norm_num

theorem binaural_left_shift_45 : binaural_left_shift 45 = 469 := by
  rw [binaural_left_shift_floor, binaural_distances_eq]
  dsimp only
  rw [cos_deg_45]
  have hs2 : Real.sqrt 2 ^ 2 = 2 := Real.sq_sqrt (by norm_num)
  have hs0 : (0 : ℝ) ≤ Real.sqrt 2 := Real.sqrt_nonneg 2
  rw [show (300 : ℝ) * ((5 + 4 * (Real.sqrt 2 / 2)) / 5) = 300 + 120 * Real.sqrt 2 by ring]
  rw [Int.floor_eq_iff]
  constructor
  · push_cast
    nlinarith
  · push_cast
    nlinarith

theorem binaural_round_45 : round ((300 : ℝ) * (compute_focus_point_distance 5 3 45 true).1) = 470 := by
  rw [binaural_distances_eq]
  dsimp only
  rw [cos_deg_45, round_eq]
  have hs2 : Real.sqrt 2 ^ 2 = 2 := Real.sq_sqrt (by norm_num)
  have hs0 : (0 : ℝ) ≤ Real.sqrt 2 := Real.sqrt_nonneg 2
  rw [show (300 : ℝ) * ((5 + 4 * (Real.sqrt 2 / 2)) / 5) + 1 / 2 = (601 / 2 : ℝ) + 120 * Real.sqrt 2 by ring]
  rw [Int.floor_eq_iff]
  constructor
  · push_cast
    nlinarith
  · push_cast
    nlinarith

/-! ### Helper lemmas: the HRTF locator -/

theorem lfilter_nil (b : List ℝ) : lfilter b [] = [] := by
  simp [lfilter]

theorem locate_hrtf_eq (fs : ℤ → ℤ → Option (List ℤ)) (e az : ℤ) (s : List ℝ) :
    locate_sound_hrtf fs e az s =
      (hrtfFilterPair fs e az).map (fun p => (lfilter p.1 s, lfilter p.2 s)) := by
  simp only [locate_sound_hrtf, hrtfFilterPair]
  cases h : (fs e (if az % 360 ≤ 180 then az % 360 else 360 - az % 360)).bind readHRTF with
  | none => rfl
  | some p =>
    by_cases haz : az % 360 ≤ 180
    · simp [haz]
    · simp [haz]

theorem readHRTF_lengths (data : List ℤ) (q : List ℝ × List ℝ) (h : readHRTF data = some q) :
    q.1.length = 64 ∧ q.2.length = 64 := by
  by_cases hlen : (data.take 256).length = 256
  · have h256 : 256 ≤ data.length := by
      rw [List.length_take] at hlen
      omega
    obtain ⟨L, R, hsome, hL, hR, _⟩ := readHRTF_some data h256
    rw [hsome, Option.some.injEq] at h
    subst h
    exact ⟨hL, hR⟩
  · unfold readHRTF at h
    rw [if_neg hlen] at h
    simp at h

theorem hrtfFilterPair_lengths (fs : ℤ → ℤ → Option (List ℤ)) (e az : ℤ) (l r : List ℝ)
    (h : hrtfFilterPair fs e az = some (l, r)) : l.length = 64 ∧ r.length = 64 := by
  simp only [hrtfFilterPair] at h
  cases hb : (fs e (if az % 360 ≤ 180 then az % 360 else 360 - az % 360)).bind readHRTF with
  | none => rw [hb] at h; simp at h
  | some q =>
    rw [hb] at h
    obtain ⟨data, _, hq⟩ := Option.bind_eq_some.mp hb
    have hlen := readHRTF_lengths data q hq
    obtain ⟨qa, qb⟩ := q
    simp only [Option.map_some', Option.some.injEq] at h
    by_cases haz : az % 360 ≤ 180
    · rw [if_pos haz, Prod.mk.injEq] at h
      obtain ⟨rfl, rfl⟩ := h
      exact hlen
    · rw [if_neg haz, Prod.mk.injEq] at h
      obtain ⟨rfl, rfl⟩ := h
      exact ⟨hlen.2, hlen.1⟩

theorem locate_hrtf_parts (fs : ℤ → ℤ → Option (List ℤ)) (e az : ℤ) (s A B : List ℝ)
    (h : locate_sound_hrtf fs e az s = some (A, B)) :
    ∃ l r, hrtfFilterPair fs e az = some (l, r) ∧ A = lfilter l s ∧ B = lfilter r s := by
  rw [locate_hrtf_eq] at h
  obtain ⟨p, hp, hmap⟩ := Option.map_eq_some'.mp h
  exact ⟨p.1, p.2, by rw [hp], (congrArg Prod.fst hmap).symm, (congrArg Prod.snd hmap).symm⟩

theorem locate_hrtf_lengths (fs : ℤ → ℤ → Option (List ℤ)) (e az : ℤ) (s A B : List ℝ)
    (h : locate_sound_hrtf fs e az s = some (A, B)) :
    A.length = s.length ∧ B.length = s.length := by
  obtain ⟨l, r, _, hA, hB⟩ := locate_hrtf_parts fs e az s A B h
  rw [hA, hB, lfilter_length, lfilter_length]
  exact ⟨rfl, rfl⟩

theorem readHRTF_replicate_zero :
    readHRTF (List.replicate 256 0) = some (List.replicate 64 0, List.replicate 64 0) := by
  obtain ⟨L, R, hsome, hL, hR, hpt⟩ :=
    readHRTF_some (List.replicate 256 0) (by rw [List.length_replicate])
  rw [hsome]
  have hgetD : ∀ j : ℕ, (List.replicate 256 (0 : ℤ)).getD j 0 = 0 := by
    intro j
    rw [List.getD_eq_getElem?_getD, List.getElem?_replicate]
    by_cases hj : j < 256
    · rw [if_pos hj]
      rfl
    · rw [if_neg hj]
      rfl
  have hLz : L = List.replicate 64 0 := by
    apply List.ext_getElem (by simp [hL])
    intro i h1 h2
    have hi : i < 64 := by omega
    have hv := (hpt i hi).1
    rw [hgetD, hgetD] at hv
    rw [List.getD_eq_getElem L 0 h1] at hv
    rw [hv]
    rw [List.getElem_replicate]
    norm_num
  have hRz : R = List.replicate 64 0 := by
    apply List.ext_getElem (by simp [hR])
    intro i h1 h2
    have hi : i < 64 := by omega
    have hv := (hpt i hi).2
    rw [hgetD, hgetD] at hv
    rw [List.getD_eq_getElem R 0 h1] at hv
    rw [hv]
    rw [List.getElem_replicate]
    norm_num
  rw [hLz, hRz]

theorem hrtfFilterPair_fsAll (e az : ℤ) :
    hrtfFilterPair fsAll e az = some (List.replicate 64 0, List.replicate 64 0) := by
  simp only [hrtfFilterPair, fsAll, Option.some_bind]
  rw [readHRTF_replicate_zero]
  by_cases haz : az % 360 ≤ 180
  · simp [haz]
  · simp [haz]

theorem locate_hrtf_fsAll_nil (e az : ℤ) : locate_sound_hrtf fsAll e az [] = some ([], []) := by
  rw [locate_hrtf_eq, hrtfFilterPair_fsAll]
  simp [lfilter_nil]

theorem binaural_left_shift_90 : binaural_left_shift 90 = 300 := by
  rw [binaural_left_shift_floor, binaural_distances_eq]
  dsimp only
  rw [cos_deg_90]
  norm_num

theorem binaural_right_shift_90 : binaural_right_shift 90 = 300 := by
  rw [binaural_right_shift_floor, binaural_distances_eq]
  dsimp only
  rw [cos_deg_90]
  norm_num

/-! ### Helper lemmas: azimuth congruence for the binaural locator -/

theorem locate_binaural_congr (az1 az2 : ℝ) (s : List ℝ)
    (h : compute_focus_point_distance 5 3 az1 true = compute_focus_point_distance 5 3 az2 true) :
    locate_sound_binaural az1 s = locate_sound_binaural az2 s := by
  unfold locate_sound_binaural binaural_left_amplitude binaural_right_amplitude
    binaural_left_shift binaural_right_shift
  rw [h]

theorem pymodR_cos (az : ℝ) :
    Real.cos (pymodR az 360 * 2 * Real.pi / 360) = Real.cos (az * 2 * Real.pi / 360) := by
  unfold pymodR
  rw [show (az - 360 * ⌊az / 360⌋) * 2 * Real.pi / 360 =
      az * 2 * Real.pi / 360 - ⌊az / 360⌋ * (2 * Real.pi) by ring]
  exact Real.cos_sub_int_mul_two_pi _ _

/-! ### Helper lemmas: the rotation sequencer -/

theorem listSum_const (l : List ℕ) (c : ℕ) (h : ∀ x ∈ l, x = c) : l.sum = l.length * c := by
  induction l with
  | nil => simp
  | cons a as ih =>
    rw [List.sum_cons, h a (by simp), ih (fun x hx => h x (by simp [hx])), List.length_cons]
    ring

theorem locate_binaural_lengths (az : ℝ) (s A B : List ℝ)
    (h : locate_sound_binaural az s = some (A, B)) :
    A.length = s.length ∧ B.length = s.length := by
  unfold locate_sound_binaural at h
  cases hl : optionMapList
      (fun (i : ℕ) => (pyGet s ((i : ℤ) - binaural_left_shift az)).map
        (fun v => binaural_left_amplitude az * v)) (List.range s.length) with
  | none =>
    rw [hl] at h
    simp at h
  | some l0 =>
    cases hr : optionMapList
        (fun (i : ℕ) => (pyGet s ((i : ℤ) - binaural_right_shift az)).map
          (fun v => binaural_right_amplitude az * v)) (List.range s.length) with
    | none =>
      rw [hl, hr] at h
      simp at h
    | some r0 =>
      rw [hl, hr] at h
      simp only [Option.some.injEq, Prod.mk.injEq] at h
      obtain ⟨hA, hB⟩ := h
      constructor
      · rw [← hA, optionMapList_length hl, List.length_range]
      · rw [← hB, optionMapList_length hr, List.length_range]

theorem locate_binaural_nil (az : ℝ) : locate_sound_binaural az [] = some ([], []) := rfl

theorem rotate_spec (fs : ℤ → ℤ → Option (List ℤ)) (s : List ℝ) (start : ℤ) (mode : String)
    (L R : List ℝ)
    (h : rotate_sound_horizontally fs s start mode = some (L, R)) :
    L.length = 72 * (s.length / 72) ∧ R.length = 72 * (s.length / 72) ∧
    ∃ rs : List (List ℝ × List ℝ), rs.length = 72 ∧
      L = (rs.map Prod.fst).flatten ∧ R = (rs.map Prod.snd).flatten ∧
      ∀ i : ℕ, i < 72 →
        rs[i]? = (if mode = "hrtf" then
            locate_sound_hrtf fs 0 ((start + (i : ℤ) * 5) % 360)
              ((s.drop (i * (s.length / 72))).take (s.length / 72))
          else
            locate_sound_binaural (((start + (i : ℤ) * 5) % 360 : ℤ) : ℝ)
              ((s.drop (i * (s.length / 72))).take (s.length / 72))) := by
  simp only [rotate_sound_horizontally] at h
  cases hm : optionMapList (rotateChunk fs start mode (s.length / 72) s)
      (List.range 72) with
  | none =>
    rw [hm] at h
    simp at h
  | some rs =>
    rw [hm] at h
    simp only [Option.some.injEq, Prod.mk.injEq] at h
    obtain ⟨hLdef, hRdef⟩ := h
    have hlen72 : rs.length = 72 := by
      rw [optionMapList_length hm, List.length_range]
    have hpt : ∀ i : ℕ, i < 72 →
        rs[i]? = (if mode = "hrtf" then
            locate_sound_hrtf fs 0 ((start + (i : ℤ) * 5) % 360)
              ((s.drop (i * (s.length / 72))).take (s.length / 72))
          else
            locate_sound_binaural (((start + (i : ℤ) * 5) % 360 : ℤ) : ℝ)
              ((s.drop (i * (s.length / 72))).take (s.length / 72))) := by
      intro i hi
      have hr := optionMapList_getElem? hm i i (by rw [List.getElem?_range hi])
      rw [hr]
      simp only [rotateChunk]
    have hseg : ∀ i : ℕ, i < 72 →
        ((s.drop (i * (s.length / 72))).take (s.length / 72)).length = s.length / 72 := by
      intro i hi
      rw [List.length_take, List.length_drop]
      have h72 : s.length / 72 * 72 ≤ s.length := Nat.div_mul_le_self s.length 72
      have hstep : (i + 1) * (s.length / 72) ≤ 72 * (s.length / 72) :=
        Nat.mul_le_mul_right _ (by omega)
      rw [Nat.succ_mul] at hstep
      have h72' : 72 * (s.length / 72) ≤ s.length := by
        rw [Nat.mul_comm]
        exact h72
      omega
    have helem : ∀ p ∈ rs, p.1.length = s.length / 72 ∧ p.2.length = s.length / 72 := by
      intro p hp
      obtain ⟨i, hio⟩ := List.mem_iff_getElem?.mp hp
      have hi : i < 72 := by
        by_contra hni
        rw [List.getElem?_eq_none (by omega)] at hio
        exact Option.noConfusion hio
      have := hpt i hi
      rw [hio] at this
      obtain ⟨A, B⟩ := p
      by_cases hmode : mode = "hrtf"
      · rw [if_pos hmode] at this
        have hl := locate_hrtf_lengths fs 0 _ _ A B this.symm
        rw [hseg i hi] at hl
        exact hl
      · rw [if_neg hmode] at this
        have hl := locate_binaural_lengths _ _ A B this.symm
        rw [hseg i hi] at hl
        exact hl
    have hLlen : L.length = 72 * (s.length / 72) := by
      rw [hLdef.symm] at *
      rw [← hLdef, List.length_flatten]
      rw [listSum_const _ (s.length / 72) ?_]
      · simp [hlen72]
      · intro x hx
        simp only [List.map_map, List.mem_map] at hx
        obtain ⟨p, hp, hpx⟩ := hx
        rw [← hpx]
        exact (helem p hp).1
    have hRlen : R.length = 72 * (s.length / 72) := by
      rw [← hRdef, List.length_flatten]
      rw [listSum_const _ (s.length / 72) ?_]
      · simp [hlen72]
      · intro x hx
        simp only [List.map_map, List.mem_map] at hx
        obtain ⟨p, hp, hpx⟩ := hx
        rw [← hpx]
        exact (helem p hp).2
    exact ⟨hLlen, hRlen, rs, hlen72, hLdef.symm, hRdef.symm, hpt⟩

theorem rotate_fsAll_nil : rotate_sound_horizontally fsAll [] 0 "hrtf" = some ([], []) := by
  simp only [rotate_sound_horizontally]
  have hconst : ∀ i ∈ List.range 72,
      rotateChunk fsAll 0 "hrtf" (([] : List ℝ).length / 72) [] i =
      some (([] : List ℝ), ([] : List ℝ)) := by
    intro i _
    simp [rotateChunk, locate_hrtf_fsAll_nil]
  rw [optionMapList_of_forall hconst]
  simp

theorem rotate_fsAll_nil_binaural :
    rotate_sound_horizontally fsAll [] 0 "binaural" = some ([], []) := by
  simp only [rotate_sound_horizontally]
  have hconst : ∀ i ∈ List.range 72,
      rotateChunk fsAll 0 "binaural" (([] : List ℝ).length / 72) [] i =
      some (([] : List ℝ), ([] : List ℝ)) := by
    intro i _
    simp [rotateChunk, locate_binaural_nil]
  rw [optionMapList_of_forall hconst]
  simp

theorem hrtfFilterPair_mirror (fs : ℤ → ℤ → Option (List ℤ)) (e θ : ℤ)
    (h1 : 180 < θ) (h2 : θ < 360) :
    hrtfFilterPair fs e θ = (hrtfFilterPair fs e (360 - θ)).map (fun p => (p.2, p.1)) := by
  simp only [hrtfFilterPair]
  rw [Int.emod_eq_of_lt (by omega) h2,
    Int.emod_eq_of_lt (by omega : (0 : ℤ) ≤ 360 - θ) (by omega : 360 - θ < 360)]
  rw [if_neg (by omega), if_pos (by omega)]
  cases hb : (fs e (360 - θ)).bind readHRTF with
  | none => rfl
  | some p =>
    simp only [Option.map_some']
    rw [if_neg (by omega), if_pos (by omega)]

/-! ## The claims -/

/-- C1, counterexample: on the spec's fixture of alternating `[0,0]` and
`[65536,65536]` pairs, the decoded coefficient 0 of the left ear equals `1`,
not `0.5` as the claim states. -/
theorem C1_counterexample :
    (readHRTF hrtfFixture).map (fun p => p.1.getD 0 0) = some 1 ∧ (1 : ℝ) ≠ 1 / 2 := by
  constructor
  · have hlen : hrtfFixture.length = 256 := by
      rw [hrtfFixture, List.length_map, List.length_range]
    obtain ⟨L, R, hsome, hL, hR, hpt⟩ := readHRTF_some hrtfFixture (by omega)
    rw [hsome]
    simp only [Option.map_some', Option.some.injEq]
    have hv := (hpt 0 (by norm_num)).1
    have h0 : hrtfFixture.getD (4 * 0) 0 = 0 := by
      rw [hrtfFixture, List.getD_eq_getElem?_getD, List.getElem?_map,
        List.getElem?_range (by norm_num : 4 * 0 < 256)]
      norm_num
    have h2 : hrtfFixture.getD (4 * 0 + 2) 0 = 65536 := by
      rw [hrtfFixture, List.getD_eq_getElem?_getD, List.getElem?_map,
        List.getElem?_range (by norm_num : 4 * 0 + 2 < 256)]
      norm_num
    rw [h0, h2] at hv
    rw [hv]
    norm_num
  · norm_num

/-- C1 (amended): for every backing artifact of exactly 256 int16 values,
`readHRTF` succeeds and coefficient `i` of each ear equals the SUM of that
ear's raw samples `2i` and `2i+1` divided by 65536 (equivalently, the average
divided by 32768) — not the average divided by 65536; on the fixture every
coefficient is `1`, not `0.5`. -/
theorem C1_decode_sum (data : List ℤ) (h : data.length = 256) :
    ∃ L R, readHRTF data = some (L, R) ∧ L.length = 64 ∧ R.length = 64 ∧
      (∀ i : ℕ, i < 64 →
        L.getD i 0 = ((data.getD (4 * i) 0 + data.getD (4 * i + 2) 0 : ℤ) : ℝ) / 65536 ∧
        R.getD i 0 = ((data.getD (4 * i + 1) 0 + data.getD (4 * i + 3) 0 : ℤ) : ℝ) / 65536) :=
  readHRTF_some data (by omega)

/-- C1 witness: the amended decode theorem applied to the all-zero 256-sample
artifact. -/
theorem C1_decode_sum_witness :
    (List.replicate 256 (0 : ℤ)).length = 256 ∧
    (∃ L R, readHRTF (List.replicate 256 (0 : ℤ)) = some (L, R) ∧
      L.length = 64 ∧ R.length = 64 ∧
      (∀ i : ℕ, i < 64 →
        L.getD i 0 = (((List.replicate 256 (0 : ℤ)).getD (4 * i) 0 +
          (List.replicate 256 (0 : ℤ)).getD (4 * i + 2) 0 : ℤ) : ℝ) / 65536 ∧
        R.getD i 0 = (((List.replicate 256 (0 : ℤ)).getD (4 * i + 1) 0 +
          (List.replicate 256 (0 : ℤ)).getD (4 * i + 3) 0 : ℤ) : ℝ) / 65536)) :=
  ⟨by rw [List.length_replicate],
   C1_decode_sum (List.replicate 256 0) (by rw [List.length_replicate])⟩

/-- C2: for azimuths strictly between 180 and 360, the HRTF locator equals the
locator at the complementary angle `360 - θ` with the two channels swapped. -/
theorem C2_hrtf_mirror (fs : ℤ → ℤ → Option (List ℤ)) (e θ : ℤ) (s : List ℝ)
    (h1 : 180 < θ) (h2 : θ < 360) :
    locate_sound_hrtf fs e θ s = (locate_sound_hrtf fs e (360 - θ) s).map swapPair := by
  rw [locate_hrtf_eq, locate_hrtf_eq, hrtfFilterPair_mirror fs e θ h1 h2]
  cases hrtfFilterPair fs e (360 - θ) with
  | none => rfl
  | some p => rfl

/-- C2 witness: the mirror identity applied at azimuth 270 on the empty store. -/
theorem C2_hrtf_mirror_witness :
    (180 : ℤ) < 270 ∧ (270 : ℤ) < 360 ∧
    locate_sound_hrtf fsNone 0 270 [] =
      (locate_sound_hrtf fsNone 0 (360 - 270) []).map swapPair :=
  ⟨by norm_num, by norm_num, C2_hrtf_mirror fsNone 0 270 [] (by norm_num) (by norm_num)⟩

/-- C3, counterexample: at azimuth 45 the code's left-ear delay
`int(300 * distance)` is `469` (truncation of `300 + 120*sqrt 2`), while
`round(300 * distance)` is `470`, so the delay is not the rounded product. -/
theorem C3_counterexample :
    binaural_left_shift 45 = 469 ∧
    round (300 * (compute_focus_point_distance 5 3 45 true).1) = 470 ∧
    binaural_left_shift 45 ≠ round (300 * (compute_focus_point_distance 5 3 45 true).1) := by
  refine ⟨binaural_left_shift_45, binaural_round_45, ?_⟩
  rw [binaural_left_shift_45, binaural_round_45]
  norm_num

/-- C3 (amended): each ear's integer sample delay is the TRUNCATION
`int(300 * distance)`, which (the distances being nonnegative) is the floor of
the product, not its rounding; the farther ear still receives the
greater-or-equal delay. -/
theorem C3_shift_truncates (az : ℝ) :
    binaural_left_shift az = ⌊300 * (compute_focus_point_distance 5 3 az true).1⌋ ∧
    binaural_right_shift az = ⌊300 * (compute_focus_point_distance 5 3 az true).2⌋ ∧
    ((compute_focus_point_distance 5 3 az true).1 ≤ (compute_focus_point_distance 5 3 az true).2 →
      binaural_left_shift az ≤ binaural_right_shift az) := by
  refine ⟨binaural_left_shift_floor az, binaural_right_shift_floor az, ?_⟩
  intro hle
  rw [binaural_left_shift_floor, binaural_right_shift_floor]
  exact Int.floor_le_floor (by nlinarith)

/-- C3 witness: at azimuth 180 the left ear is nearer, and its delay is
accordingly not larger. -/
theorem C3_shift_truncates_witness :
    (compute_focus_point_distance 5 3 180 true).1 ≤ (compute_focus_point_distance 5 3 180 true).2 ∧
    binaural_left_shift 180 ≤ binaural_right_shift 180 := by
  have hd : (compute_focus_point_distance 5 3 180 true).1 ≤
      (compute_focus_point_distance 5 3 180 true).2 := by
    rw [binaural_distances_eq]
    dsimp only
    rw [cos_deg_180]
    norm_num
  exact ⟨hd, (C3_shift_truncates 180).2.2 hd⟩

/-- C4, counterexample: the claim as stated fails: at azimuth 180 on the
two-sample signal `[1, 1]` the right-ear delay (540) drives the read index
below `-len(s)`, so the call raises `IndexError` (modelled `none`) instead of
wrapping circularly. -/
theorem C4_counterexample :
    locate_sound_binaural 180 [(1 : ℝ), 1] = none ∧ 0 < [(1 : ℝ), 1].length := by
  constructor
  · apply locate_binaural_none_left 180 _ (by norm_num)
    rw [binaural_left_shift_180]
    norm_num
  · norm_num

/-- C4 (amended): whenever each ear's delay is at most the signal length (and
the signal is non-empty), the binaural locator returns two signals of the
input's length with `output[i] = amplitude * s[(i - shift) mod N]`, the
negative indices wrapping once from the end, with
`amplitude = 0.1 + (1 - normalizedDistance)` per ear. -/
theorem C4_binaural_formula (az : ℝ) (s : List ℝ) (h0 : 0 < s.length)
    (hL : binaural_left_shift az ≤ (s.length : ℤ))
    (hR : binaural_right_shift az ≤ (s.length : ℤ)) :
    ∃ L R, locate_sound_binaural az s = some (L, R) ∧
      L.length = s.length ∧ R.length = s.length ∧
      ∀ i : ℕ, i < s.length →
        L.getD i 0 = binaural_left_amplitude az *
          s.getD (((i : ℤ) - binaural_left_shift az) % (s.length : ℤ)).toNat 0 ∧
        R.getD i 0 = binaural_right_amplitude az *
          s.getD (((i : ℤ) - binaural_right_shift az) % (s.length : ℤ)).toNat 0 := by
  refine ⟨_, _, locate_binaural_spec az s hL hR, by simp, by simp, ?_⟩
  intro i hi
  constructor
  · rw [List.getD_eq_getElem?_getD, List.getElem?_map, List.getElem?_range hi]
    rfl
  · rw [List.getD_eq_getElem?_getD, List.getElem?_map, List.getElem?_range hi]
    rfl

/-- C4 witness: the amended formula applied at azimuth 90 (both delays 300) on
a 300-sample signal. -/
theorem C4_binaural_formula_witness :
    0 < (List.replicate 300 (1 : ℝ)).length ∧
    binaural_left_shift 90 ≤ ((List.replicate 300 (1 : ℝ)).length : ℤ) ∧
    binaural_right_shift 90 ≤ ((List.replicate 300 (1 : ℝ)).length : ℤ) ∧
    (∃ L R, locate_sound_binaural 90 (List.replicate 300 (1 : ℝ)) = some (L, R) ∧
      L.length = (List.replicate 300 (1 : ℝ)).length ∧
      R.length = (List.replicate 300 (1 : ℝ)).length ∧
      ∀ i : ℕ, i < (List.replicate 300 (1 : ℝ)).length →
        L.getD i 0 = binaural_left_amplitude 90 *
          (List.replicate 300 (1 : ℝ)).getD
            (((i : ℤ) - binaural_left_shift 90) % ((List.replicate 300 (1 : ℝ)).length : ℤ)).toNat 0 ∧
        R.getD i 0 = binaural_right_amplitude 90 *
          (List.replicate 300 (1 : ℝ)).getD
            (((i : ℤ) - binaural_right_shift 90) % ((List.replicate 300 (1 : ℝ)).length : ℤ)).toNat 0) := by
  have h0 : 0 < (List.replicate 300 (1 : ℝ)).length := by
    rw [List.length_replicate]
    norm_num
  have hL : binaural_left_shift 90 ≤ ((List.replicate 300 (1 : ℝ)).length : ℤ) := by
    rw [binaural_left_shift_90, List.length_replicate]
    norm_num
  have hR : binaural_right_shift 90 ≤ ((List.replicate 300 (1 : ℝ)).length : ℤ) := by
    rw [binaural_right_shift_90, List.length_replicate]
    norm_num
  exact ⟨h0, hL, hR, C4_binaural_formula 90 (List.replicate 300 (1 : ℝ)) h0 hL hR⟩

/-- C5: under either locator mode, whenever the rotation sequencer returns,
it has partitioned the signal into 72 chunks of `N / 72` samples, rendered
chunk `i` at azimuth `(start + i*5) % 360` with the locator selected by the
mode, concatenated the chunk outputs in order, and both channels have length
exactly `72 * (N / 72)` — the remainder is dropped. -/
theorem C5_rotation (fs : ℤ → ℤ → Option (List ℤ)) (s : List ℝ) (start : ℤ) (mode : String)
    (L R : List ℝ)
    (h : rotate_sound_horizontally fs s start mode = some (L, R)) :
    L.length = 72 * (s.length / 72) ∧ R.length = 72 * (s.length / 72) ∧
    ∃ rs : List (List ℝ × List ℝ), rs.length = 72 ∧
      L = (rs.map Prod.fst).flatten ∧ R = (rs.map Prod.snd).flatten ∧
      ∀ i : ℕ, i < 72 →
        rs[i]? = (if mode = "hrtf" then
            locate_sound_hrtf fs 0 ((start + (i : ℤ) * 5) % 360)
              ((s.drop (i * (s.length / 72))).take (s.length / 72))
          else
            locate_sound_binaural (((start + (i : ℤ) * 5) % 360 : ℤ) : ℝ)
              ((s.drop (i * (s.length / 72))).take (s.length / 72))) :=
  rotate_spec fs s start mode L R h

/-- C5 witness: the rotation theorem applied to the empty signal over the
all-zero store, in hrtf mode and in binaural mode, where every chunk is empty
and the result is a pair of empty channels. -/
theorem C5_rotation_witness :
    (rotate_sound_horizontally fsAll [] 0 "hrtf" = some ([], []) ∧
     (([] : List ℝ).length = 72 * (([] : List ℝ).length / 72) ∧
      ([] : List ℝ).length = 72 * (([] : List ℝ).length / 72) ∧
      ∃ rs : List (List ℝ × List ℝ), rs.length = 72 ∧
        ([] : List ℝ) = (rs.map Prod.fst).flatten ∧ ([] : List ℝ) = (rs.map Prod.snd).flatten ∧
        ∀ i : ℕ, i < 72 →
          rs[i]? = (if ("hrtf" : String) = "hrtf" then
              locate_sound_hrtf fsAll 0 ((0 + (i : ℤ) * 5) % 360)
                ((([] : List ℝ).drop (i * (([] : List ℝ).length / 72))).take
                  (([] : List ℝ).length / 72))
            else
              locate_sound_binaural (((0 + (i : ℤ) * 5) % 360 : ℤ) : ℝ)
                ((([] : List ℝ).drop (i * (([] : List ℝ).length / 72))).take
                  (([] : List ℝ).length / 72))))) ∧
    (rotate_sound_horizontally fsAll [] 0 "binaural" = some ([], []) ∧
     (([] : List ℝ).length = 72 * (([] : List ℝ).length / 72) ∧
      ([] : List ℝ).length = 72 * (([] : List ℝ).length / 72) ∧
      ∃ rs : List (List ℝ × List ℝ), rs.length = 72 ∧
        ([] : List ℝ) = (rs.map Prod.fst).flatten ∧ ([] : List ℝ) = (rs.map Prod.snd).flatten ∧
        ∀ i : ℕ, i < 72 →
          rs[i]? = (if ("binaural" : String) = "hrtf" then
              locate_sound_hrtf fsAll 0 ((0 + (i : ℤ) * 5) % 360)
                ((([] : List ℝ).drop (i * (([] : List ℝ).length / 72))).take
                  (([] : List ℝ).length / 72))
            else
              locate_sound_binaural (((0 + (i : ℤ) * 5) % 360 : ℤ) : ℝ)
                ((([] : List ℝ).drop (i * (([] : List ℝ).length / 72))).take
                  (([] : List ℝ).length / 72))))) :=
  ⟨⟨rotate_fsAll_nil, C5_rotation fsAll [] 0 "hrtf" [] [] rotate_fsAll_nil⟩,
   ⟨rotate_fsAll_nil_binaural, C5_rotation fsAll [] 0 "binaural" [] [] rotate_fsAll_nil_binaural⟩⟩

/-- C6, counterexample: mirroring does not swap the two distances: with
`a = 5`, `b = 3` the left distance at 60 degrees is 7, while the right
distance at `360 - 60 = 300` degrees is 3. -/
theorem C6_counterexample :
    (compute_focus_point_distance 5 3 60 false).1 = 7 ∧
    (compute_focus_point_distance 5 3 300 false).2 = 3 ∧
    (compute_focus_point_distance 5 3 60 false).1 ≠
      (compute_focus_point_distance 5 3 300 false).2 := by
  have h60 : compute_focus_point_distance 5 3 60 false = (7, 3) := by
    rw [cfpd_eq_nf]
    simp only [Bool.false_eq_true, if_false]
    rw [cos_deg_60, cfpdNF_53 _ (by norm_num) (by norm_num)]
    norm_num
  have h300 : compute_focus_point_distance 5 3 300 false = (7, 3) := by
    rw [cfpd_eq_nf]
    simp only [Bool.false_eq_true, if_false]
    rw [cos_deg_300, cfpdNF_53 _ (by norm_num) (by norm_num)]
    norm_num
  refine ⟨by rw [h60], by rw [h300], by rw [h60, h300]; norm_num⟩

/-- C6 (amended): mirroring the azimuth preserves (rather than swaps) the two
ear distances: both distances depend on the azimuth only through its cosine,
which is unchanged by `θ ↦ 360 - θ`. -/
theorem C6_mirror_preserves (a b θ : ℝ) (n : Bool) (hb : 0 < b) (hab : b < a) :
    compute_focus_point_distance a b (360 - θ) n = compute_focus_point_distance a b θ n := by
  apply cfpd_congr
  rw [show (360 - θ) * 2 * Real.pi / 360 = 2 * Real.pi - θ * 2 * Real.pi / 360 by ring]
  exact Real.cos_two_pi_sub _

/-- C6 witness: the preservation identity at the counterexample's parameters. -/
theorem C6_mirror_preserves_witness :
    (0 : ℝ) < 3 ∧ (3 : ℝ) < 5 ∧
    compute_focus_point_distance 5 3 (360 - 60) false = compute_focus_point_distance 5 3 60 false :=
  ⟨by norm_num, by norm_num, C6_mirror_preserves 5 3 60 false (by norm_num) (by norm_num)⟩

/-- C7: whenever the 64-tap coefficient pair for an (elevation, azimuth)
loads successfully, each output channel of the HRTF locator is the truncated
causal FIR convolution of the input with that ear's coefficients (input zero
before index 0), and both channels have the input's length. -/
theorem C7_fir_convolution (fs : ℤ → ℤ → Option (List ℤ)) (e az : ℤ) (s l r : List ℝ)
    (hpair : hrtfFilterPair fs e az = some (l, r)) :
    ∃ A B, locate_sound_hrtf fs e az s = some (A, B) ∧
      A.length = s.length ∧ B.length = s.length ∧ l.length = 64 ∧ r.length = 64 ∧
      ∀ n : ℕ, n < s.length →
        A.getD n 0 = ∑ k ∈ Finset.range 64, l.getD k 0 * zpad s ((n : ℤ) - k) ∧
        B.getD n 0 = ∑ k ∈ Finset.range 64, r.getD k 0 * zpad s ((n : ℤ) - k) := by
  obtain ⟨hl64, hr64⟩ := hrtfFilterPair_lengths fs e az l r hpair
  refine ⟨lfilter l s, lfilter r s, ?_, lfilter_length l s, lfilter_length r s, hl64, hr64, ?_⟩
  · rw [locate_hrtf_eq, hpair]
    rfl
  · intro n hn
    constructor
    · rw [lfilter_formula l s n hn, hl64]
    · rw [lfilter_formula r s n hn, hr64]

/-- C7 witness: the convolution theorem applied to the all-zero store at
elevation 0, azimuth 0, on the empty signal. -/
theorem C7_fir_convolution_witness :
    hrtfFilterPair fsAll 0 0 = some (List.replicate 64 0, List.replicate 64 0) ∧
    (∃ A B, locate_sound_hrtf fsAll 0 0 ([] : List ℝ) = some (A, B) ∧
      A.length = ([] : List ℝ).length ∧ B.length = ([] : List ℝ).length ∧
      (List.replicate 64 (0 : ℝ)).length = 64 ∧ (List.replicate 64 (0 : ℝ)).length = 64 ∧
      ∀ n : ℕ, n < ([] : List ℝ).length →
        A.getD n 0 = ∑ k ∈ Finset.range 64,
          (List.replicate 64 (0 : ℝ)).getD k 0 * zpad [] ((n : ℤ) - k) ∧
        B.getD n 0 = ∑ k ∈ Finset.range 64,
          (List.replicate 64 (0 : ℝ)).getD k 0 * zpad [] ((n : ℤ) - k)) :=
  ⟨hrtfFilterPair_fsAll 0 0,
   C7_fir_convolution fsAll 0 0 [] (List.replicate 64 0) (List.replicate 64 0)
     (hrtfFilterPair_fsAll 0 0)⟩

/-- C8: both locators are invariant under reducing the azimuth modulo 360:
the HRTF locator reduces explicitly, and the binaural locator's geometry
depends on the azimuth only through the cosine of the (2π-periodic) angle. -/
theorem C8_azimuth_mod360 (fs : ℤ → ℤ → Option (List ℤ)) (e θ : ℤ) (s : List ℝ)
    (az : ℝ) (t : List ℝ) :
    locate_sound_hrtf fs e θ s = locate_sound_hrtf fs e (θ % 360) s ∧
    locate_sound_binaural az t = locate_sound_binaural (pymodR az 360) t := by
  constructor
  · simp only [locate_sound_hrtf]
    rw [Int.emod_emod_of_dvd θ dvd_rfl]
  · exact locate_binaural_congr az (pymodR az 360) t
      (cfpd_congr 5 3 az (pymodR az 360) true (pymodR_cos az).symm)

/-- C9, counterexample: with degenerate parameters `a = 3 ≤ b = 5` the
geometric model raises nothing: it proceeds through the focal computation
(`sqrt` of a negative argument, `NaN` in NumPy, 0 in this real-valued model)
and returns a definite pair. -/
theorem C9_counterexample : compute_focus_point_distance 3 5 0 false = (3, 3) := by
  rw [cfpd_eq_nf]
  simp only [Bool.false_eq_true, if_false]
  rw [cos_deg_0]
  have hc : Real.sqrt ((3 : ℝ) ^ 2 - 5 ^ 2) = 0 := Real.sqrt_eq_zero_of_nonpos (by norm_num)
  unfold cfpdNF
  rw [hc]
  have hy : ((5 : ℝ) ^ 2 * (1 - ((1 : ℝ) * 3) ^ 2 / 3 ^ 2)) = 0 := by norm_num
  rw [hy, Real.sqrt_zero]
  rw [show ((1 : ℝ) * 3 + 0) ^ 2 + (0 : ℝ) ^ 2 = 3 ^ 2 by norm_num]
  rw [show ((1 : ℝ) * 3 - 0) ^ 2 + (0 : ℝ) ^ 2 = 3 ^ 2 by norm_num]
  rw [Real.sqrt_sq (by norm_num : (0 : ℝ) ≤ 3)]

/-- C9 (amended): the code performs no validation for `b ≥ a`: the call
proceeds, and in the real-valued model (square root of a negative argument
taken as 0) the two foci coincide, so both ear distances are equal for every
degree. No `DegenerateGeometryError` exists in the code. -/
theorem C9_no_validation (a b d : ℝ) (n : Bool) (h0 : 0 ≤ a) (hba : a ≤ b) :
    (compute_focus_point_distance a b d n).1 = (compute_focus_point_distance a b d n).2 := by
  have hc : Real.sqrt (a ^ 2 - b ^ 2) = 0 := Real.sqrt_eq_zero_of_nonpos (by nlinarith)
  rw [cfpd_eq_nf]
  cases n
  · simp [cfpdNF, hc]
  · simp [cfpdNF, hc]

/-- C9 witness: equality of the two distances at the degenerate parameters
`a = 3`, `b = 5`, degree 0. -/
theorem C9_no_validation_witness :
    (0 : ℝ) ≤ 3 ∧ (3 : ℝ) ≤ 5 ∧
    (compute_focus_point_distance 3 5 0 false).1 = (compute_focus_point_distance 3 5 0 false).2 :=
  ⟨by norm_num, by norm_num, C9_no_validation 3 5 0 false (by norm_num) (by norm_num)⟩

/-- C10: the binaural locator succeeds on every signal of at least 540
samples (540 bounds every possible delay), but at azimuth 0 on the
single-sample signal `[1]` the read index falls below `-len(s)` and the call
fails with an index error (modelled `none`) instead of wrapping. -/
theorem C10_binaural_totality :
    (∀ (az : ℝ) (s : List ℝ), 540 ≤ s.length →
      ∃ p, locate_sound_binaural az s = some p) ∧
    locate_sound_binaural 0 [(1 : ℝ)] = none := by
  constructor
  · intro az s h
    obtain ⟨hb1, hb2, hb3, hb4⟩ := binaural_shift_bounds az
    exact ⟨_, locate_binaural_spec az s (by omega) (by omega)⟩
  · apply locate_binaural_none_left 0 _ (by norm_num)
    rw [binaural_left_shift_0]
    simp

/-- C10 witness: success on a 540-sample signal at azimuth 90. -/
theorem C10_binaural_totality_witness :
    540 ≤ (List.replicate 540 (0 : ℝ)).length ∧
    ∃ p, locate_sound_binaural 90 (List.replicate 540 (0 : ℝ)) = some p :=
  ⟨by rw [List.length_replicate],
   C10_binaural_totality.1 90 (List.replicate 540 (0 : ℝ)) (by rw [List.length_replicate])⟩
